import Mathlib

/-!
Verification of the TOTP core of the `_worker.js` Cloudflare worker
(`2fa-AUTH-cloudflare`).  The JavaScript functions `base32ToBytes`,
`parseOtpAuthUrl` and the `TOTP` class (constructor, `generate`,
`generateOTP`) are shallowly embedded below.  Strings are modelled as
`List Char`, bytes as `Nat` with explicit bounds, JavaScript 32-bit
integer arithmetic as `Nat` arithmetic with explicit `% 2 ^ 32`, and the
throwing functions as `Except String`.  The WebCrypto HMAC primitive is
an external collaborator; functions that consume a digest are stated for
every possible 20-byte digest, with the HMAC left abstract.
-/

deriving instance DecidableEq for Except

/-- ASCII-level model of JavaScript `String.prototype.toUpperCase` applied
to one code unit: lower-case ASCII letters are mapped to the corresponding
upper-case letter, everything else is unchanged.  (Real JS additionally
applies Unicode case mapping to some non-ASCII letters; those are outside
this model.) -/
def jsToUpper (c : Char) : Char :=
  if 97 ≤ c.toNat ∧ c.toNat ≤ 122 then Char.ofNat (c.toNat - 32) else c

/-- ASCII-level model of JavaScript `toLowerCase` for one code unit,
used by the WHATWG URL parser to normalise the scheme. -/
def jsToLower (c : Char) : Char :=
  if 65 ≤ c.toNat ∧ c.toNat ≤ 90 then Char.ofNat (c.toNat + 32) else c

/-- Model of `str.replace(/ /g, '')` from the `TOTP` constructor: removes
every U+0020 space character (and nothing else). -/
def removeSpaces (l : List Char) : List Char :=
  l.filter (fun c => c != ' ')

/-- Model of `str.replace(/=+$/, '')` from `base32ToBytes`: strips the
trailing run of `=` characters. -/
def stripTrailingEq (l : List Char) : List Char :=
  (l.reverse.dropWhile (fun c => c == '=')).reverse

/-- The RFC 4648 Base32 alphabet literal from `base32ToBytes`. -/
def alphabet : List Char :=
  ['A','B','C','D','E','F','G','H','I','J','K','L','M','N','O','P','Q','R',
   'S','T','U','V','W','X','Y','Z','2','3','4','5','6','7']

/-- Model of `String.prototype.indexOf` for a single character, returning
`none` where JS returns `-1`. -/
def idxOf : List Char → Char → Option Nat
  | [], _ => none
  | a :: rest, c => if a = c then some 0 else (idxOf rest c).map (· + 1)

/-- The decode loop of `base32ToBytes` (lines 331-342 of `_worker.js`).
`value` is the JS number holding the bit accumulator: JS evaluates
`(value << 5) | idx` with 32-bit integer semantics, so the accumulator is
kept reduced `% 2 ^ 32`; the emitted byte `(value >> (bits - 8)) & 0xff`
only looks at the low `bits ≤ 12` bits, where the 32-bit wrap-around and
the sign of the JS number are invisible. -/
def base32Loop : List Char → Nat → Nat → List Nat → Except String (List Nat)
  | [], _, _, bytes => .ok bytes
  | c :: rest, bits, value, bytes =>
    match idxOf alphabet c with
    | none => .error "Invalid base32"
    | some idx =>
      let value2 := ((value <<< 5) % 2 ^ 32) ||| idx
      if 8 ≤ bits + 5 then
        base32Loop rest (bits + 5 - 8) value2
          (bytes ++ [(value2 >>> (bits + 5 - 8)) &&& 0xff])
      else
        base32Loop rest (bits + 5) value2 bytes

/-- Model of `base32ToBytes` from `_worker.js`: upper-case the input, strip
trailing `=` padding, then run the 5-bit accumulator loop.  A character
outside the alphabet yields the thrown `Invalid base32` error. -/
def base32ToBytes (l : List Char) : Except String (List Nat) :=
  base32Loop (stripTrailingEq (List.map jsToUpper l)) 0 0 []

/-- Reference Base32 decode loop, modelled from the spec's words
(spec 4.1): accumulate 5 bits per symbol into a bit buffer; every time the
buffer holds at least 8 bits, the top 8 bits are emitted as one output
byte and removed from the buffer; trailing bits are discarded. -/
def base32RefLoop : List Char → Nat → Nat → List Nat → Except String (List Nat)
  | [], _, _, bytes => .ok bytes
  | c :: rest, bits, buf, bytes =>
    match idxOf alphabet c with
    | none => .error "Invalid base32"
    | some idx =>
      let buf2 := buf * 32 + idx
      if 8 ≤ bits + 5 then
        base32RefLoop rest (bits + 5 - 8) (buf2 % 2 ^ (bits + 5 - 8))
          (bytes ++ [buf2 / 2 ^ (bits + 5 - 8)])
      else
        base32RefLoop rest (bits + 5) buf2 bytes

/-- Reference Base32 decode: same normalisation as the code, reference
accumulator loop. -/
def base32Ref (l : List Char) : Except String (List Nat) :=
  base32RefLoop (stripTrailingEq (List.map jsToUpper l)) 0 0 []

/-- Normalisation claimed by the spec for the constructor input path, as
the code performs it: interior U+0020 spaces removed, letters upper-cased,
trailing `=` stripped. -/
def normalizeSecret (l : List Char) : List Char :=
  stripTrailingEq (List.map jsToUpper (removeSpaces l))

/-- Modelled from the spec: normalisation with ALL interior whitespace
removed (spec 4.1 says "interior whitespace removed"), in contrast to the
code, which removes only U+0020 spaces. -/
def specWhitespaceNormalize (l : List Char) : List Char :=
  stripTrailingEq (List.map jsToUpper (l.filter (fun c => !c.isWhitespace)))

/-- The decode path of the `TOTP` constructor: `base32ToBytes(secret.replace(/ /g, ''))`. -/
def secretDecode (l : List Char) : Except String (List Nat) :=
  base32ToBytes (removeSpaces l)

/-- The `TOTP` instance state set by the constructor (lines 291-296 of
`_worker.js`). -/
structure TOTP where
  secret : List Nat
  period : Nat
  digits : Nat
  algorithm : List Char
deriving Repr, DecidableEq

/-- Model of `new TOTP(secret)`: decodes the space-stripped secret text and
stores the fixed parameters; a decode failure is the thrown exception. -/
def TOTP.ofSecret (l : List Char) : Except String TOTP :=
  (secretDecode l).map (fun b => ⟨b, 30, 6, "SHA-1".data⟩)

/-- Decimal digit character, as produced by JS `Number.prototype.toString`. -/
def digitChar (d : Nat) : Char := Char.ofNat (48 + d)

/-- Fueled core of the decimal conversion: prepends the digits of `n` to
`acc`, least significant digit extracted first.  `fuel` only serves
termination; `natDigits` supplies enough. -/
def natDigitsCore : Nat → Nat → List Char → List Char
  | 0, _, acc => acc
  | fuel + 1, n, acc =>
    let acc2 := digitChar (n % 10) :: acc
    if n < 10 then acc2 else natDigitsCore fuel (n / 10) acc2

/-- Model of JS `Number.prototype.toString()` (base 10) for a non-negative
integer: its decimal digit characters, most significant first. -/
def natDigits (n : Nat) : List Char := natDigitsCore (n + 1) n []

/-- Model of `String.prototype.padStart(n, c)`: left-pad to length `n`
with `c` (no-op when already at least that long). -/
def padStart (l : List Char) (n : Nat) (c : Char) : List Char :=
  List.replicate (n - l.length) c ++ l

/-- The dynamic-truncation offset from `generateOTP`:
`hmac[hmac.length - 1] & 0xf`. -/
def truncOffset (hmac : List Nat) : Nat :=
  hmac.getD (hmac.length - 1) 0 &&& 0xf

/-- The `binCode` computation of `generateOTP` (lines 316-321 of
`_worker.js`).  All four operands are below `2 ^ 31` (the top byte is
masked with `0x7f`), so the JS 32-bit signed `<<`/`|` never wrap and are
modelled by plain `Nat` shift and or. -/
def binCodeOf (hmac : List Nat) : Nat :=
  let offset := truncOffset hmac
  ((hmac.getD offset 0 &&& 0x7f) <<< 24) |||
  ((hmac.getD (offset + 1) 0 &&& 0xff) <<< 16) |||
  ((hmac.getD (offset + 2) 0 &&& 0xff) <<< 8) |||
  (hmac.getD (offset + 3) 0 &&& 0xff)

/-- The tail of `generateOTP` applied to an HMAC digest:
`(binCode % 10 ** digits).toString().padStart(digits, '0')`. -/
def otpFromDigest (hmac : List Nat) (digits : Nat) : String :=
  String.mk (padStart (natDigits (binCodeOf hmac % 10 ^ digits)) digits '0')

/-- Reference dynamic truncation, modelled from the spec's words
(spec 4.2, RFC 4226 section 5.3): `offset = digest[19] & 0x0F`; take the
four bytes at `offset`, mask the most significant bit of the first, and
assemble big-endian. -/
def refTruncate (digest : List Nat) : Nat :=
  let offset := digest.getD 19 0 % 16
  (digest.getD offset 0 % 128) * 2 ^ 24 + digest.getD (offset + 1) 0 * 2 ^ 16 +
    digest.getD (offset + 2) 0 * 2 ^ 8 + digest.getD (offset + 3) 0

/-- Reference decimal formatting, modelled from the spec's words: the
decimal representation of `binCode mod 10^6`, left-padded with `0` to
exactly 6 digits. -/
def refCode (digest : List Nat) : String :=
  String.mk (padStart (natDigits (refTruncate digest % 10 ^ 6)) 6 '0')

/-- The 8-byte HMAC message of `generateOTP` (lines 304-307): a zeroed
8-byte buffer with `setUint32(4, counter)`, i.e. the high 4 bytes stay 0
and the low 4 bytes hold `ToUint32(counter) = counter % 2^32` big-endian. -/
def counterBytes (counter : Nat) : List Nat :=
  let v := counter % 2 ^ 32
  [0, 0, 0, 0, v / 2 ^ 24 % 256, v / 2 ^ 16 % 256, v / 2 ^ 8 % 256, v % 256]

/-- Reference big-endian 4-byte encoding of a value below `2 ^ 32`
(spec 4.2: "low 4 bytes holding the value"). -/
def be4 (v : Nat) : List Nat :=
  [v / 2 ^ 24 % 256, v / 2 ^ 16 % 256, v / 2 ^ 8 % 256, v % 256]

/-- Reference true 8-byte big-endian encoding of a counter below `2 ^ 64`. -/
def be8 (v : Nat) : List Nat :=
  [v / 2 ^ 56 % 256, v / 2 ^ 48 % 256, v / 2 ^ 40 % 256, v / 2 ^ 32 % 256,
   v / 2 ^ 24 % 256, v / 2 ^ 16 % 256, v / 2 ^ 8 % 256, v % 256]

/-- Model of `TOTP.generateOTP(counter)`: the HMAC primitive is abstracted
as a function `hmacFn` from key bytes and message bytes to the digest
bytes; the rest is the truncation and formatting of the digest. -/
def TOTP.generateOTP (t : TOTP) (hmacFn : List Nat → List Nat → List Nat)
    (counter : Nat) : String :=
  otpFromDigest (hmacFn t.secret (counterBytes counter)) t.digits

/-- Model of `TOTP.generate()`: `counter = Math.floor(Date.now() / 1000 /
this.period)` with `Date.now()` passed in as `nowMs` (milliseconds).  The
successive floors of the two divisions model the JS float divisions
exactly for every count of milliseconds representable in this model. -/
def TOTP.generate (t : TOTP) (hmacFn : List Nat → List Nat → List Nat)
    (nowMs : Nat) : String :=
  t.generateOTP hmacFn (nowMs / 1000 / t.period)

/-- Scheme characters accepted by the WHATWG URL parser after the first
letter: ASCII alphanumerics and `+`, `-`, `.`. -/
def isSchemeChar (c : Char) : Bool :=
  (65 ≤ c.toNat && c.toNat ≤ 90) || (97 ≤ c.toNat && c.toNat ≤ 122) ||
  (48 ≤ c.toNat && c.toNat ≤ 57) || c == '+' || c == '-' || c == '.'

/-- Leading ASCII letter required of a URL scheme. -/
def isAsciiAlpha (c : Char) : Bool :=
  (65 ≤ c.toNat && c.toNat ≤ 90) || (97 ≤ c.toNat && c.toNat ≤ 122)

/-- Splits `scheme ':' rest`, failing when a non-scheme character or the
end of input is reached before a colon. -/
def schemeSplit : List Char → Option (List Char × List Char)
  | [] => none
  | c :: rest =>
    if c = ':' then some ([], rest)
    else if isSchemeChar c then (schemeSplit rest).map (fun p => (c :: p.1, p.2))
    else none

/-- Components of a parsed URL as exposed by the JS `URL` object:
`scheme` (protocol without the colon, lower-cased), `host` (hostname,
kept verbatim for a non-special scheme), `path` (pathname, including its
leading slash when an authority is present) and `query` (search without
the `?`). -/
structure UrlParts where
  scheme : List Char
  host : List Char
  path : List Char
  query : List Char
deriving Repr, DecidableEq

/-- Model of `new URL(url)` for the non-special schemes exercised here
(WHATWG URL): a scheme (one ASCII letter then scheme characters) up to
`:`; an optional `//`-introduced authority read up to `/`, `?` or the
fragment; then the path up to `?`; then the query.  The fragment is
discarded.  Inputs without a valid scheme prefix are the ones on which
`new URL` throws.  (Host character validation, ports and userinfo are not
modelled; no claim exercises them.) -/
def parseURL (l : List Char) : Option UrlParts :=
  match schemeSplit l with
  | none => none
  | some (sch, rest) =>
    match sch with
    | [] => none
    | c0 :: _ =>
      if isAsciiAlpha c0 then
        let scheme := sch.map jsToLower
        let rest := rest.takeWhile (fun c => c != '#')
        match rest with
        | '/' :: '/' :: r =>
          let host := r.takeWhile (fun c => !(c == '/' || c == '?'))
          let r2 := r.drop host.length
          let path := r2.takeWhile (fun c => c != '?')
          some ⟨scheme, host, path, (r2.drop path.length).drop 1⟩
        | _ =>
          let path := rest.takeWhile (fun c => c != '?')
          some ⟨scheme, [], path, (rest.drop path.length).drop 1⟩
      else none

/-- Value of one hexadecimal digit. -/
def hexVal (c : Char) : Option Nat :=
  if 48 ≤ c.toNat ∧ c.toNat ≤ 57 then some (c.toNat - 48)
  else if 65 ≤ c.toNat ∧ c.toNat ≤ 70 then some (c.toNat - 55)
  else if 97 ≤ c.toNat ∧ c.toNat ≤ 102 then some (c.toNat - 87)
  else none

/-- Model of `decodeURIComponent`: replaces `%XX` escapes by the byte
value and fails (JS throws `URIError`) on a `%` not followed by two hex
digits.  Bytes are mapped to code points directly; the UTF-8 layer for
multi-byte sequences is not modelled (no claim exercises it). -/
def percentDecode : List Char → Option (List Char)
  | [] => some []
  | '%' :: a :: b :: rest =>
    match hexVal a, hexVal b with
    | some x, some y => (percentDecode rest).map (Char.ofNat (16 * x + y) :: ·)
    | _, _ => none
  | '%' :: _ => none
  | c :: rest => (percentDecode rest).map (c :: ·)

/-- Lenient form decoding used by `URLSearchParams`: `+` means space,
well-formed `%XX` escapes are decoded, and malformed `%` is kept
verbatim (this decoder never fails). -/
def formDecode : List Char → List Char
  | [] => []
  | '+' :: rest => ' ' :: formDecode rest
  | '%' :: a :: b :: rest =>
    match hexVal a, hexVal b with
    | some x, some y => Char.ofNat (16 * x + y) :: formDecode rest
    | _, _ => '%' :: formDecode (a :: b :: rest)
  | c :: rest => c :: formDecode rest

/-- Splits a list on a separator character. -/
def splitOn (sep : Char) : List Char → List (List Char)
  | [] => [[]]
  | c :: rest =>
    match splitOn sep rest with
    | [] => [[c]]
    | h :: t => if c = sep then [] :: h :: t else (c :: h) :: t

/-- Splits one `name=value` pair at the first `=`; a pair without `=` has
the empty value. -/
def splitFirstEq (l : List Char) : List Char × List Char :=
  (l.takeWhile (fun c => c != '='), (l.drop (l.takeWhile (fun c => c != '=')).length).drop 1)

/-- Model of `u.searchParams.entries()`: split the query on `&`, drop
empty segments, split each at the first `=`, form-decode names and
values. -/
def queryEntries (q : List Char) : List (List Char × List Char) :=
  ((splitOn '&' q).filter (fun seg => seg != [])).map
    (fun seg => (formDecode (splitFirstEq seg).1, formDecode (splitFirstEq seg).2))

/-- Model of `Object.fromEntries(u.searchParams.entries())[name]`: the
value of the last entry with the given name, when any. -/
def getParam (q : List Char) (name : List Char) : Option (List Char) :=
  ((queryEntries q).reverse.find? (fun p => p.1 == name)).map (fun p => p.2)

/-- The record returned by `parseOtpAuthUrl`. -/
structure OtpParts where
  label : List Char
  secret : Option (List Char)
  issuer : Option (List Char)
deriving Repr, DecidableEq

/-- Model of `parseOtpAuthUrl` (lines 269-281 of `_worker.js`): parse the
URL, require protocol `otpauth:` and hostname `totp`, percent-decode the
pathname after its leading slash as the label, and look up the `secret`
and `issuer` query parameters.  Every thrown exception (including the
`URIError` of `decodeURIComponent`) becomes an error value. -/
def parseOtpAuthUrl (l : List Char) : Except String OtpParts :=
  match parseURL l with
  | none => .error "invalid URL"
  | some u =>
    if u.scheme ≠ "otpauth".data then .error "protocol must be otpauth"
    else if u.host ≠ "totp".data then .error "only totp type supported"
    else
      match percentDecode (u.path.drop 1) with
      | none => .error "malformed URI component"
      | some label =>
        .ok ⟨label, getParam u.query "secret".data, getParam u.query "issuer".data⟩

/-- Scheme and host of a parsed URL, for stating structural parseability
on concrete inputs. -/
def urlSchemeHost (l : List Char) : Option (List Char × List Char) :=
  (parseURL l).map (fun u => (u.scheme, u.host))

/-- Char round-trip for code points below the surrogate range. -/
theorem toNat_ofNat_valid (n : Nat) (h : n < 55296) : (Char.ofNat n).toNat = n := by
  rw [Char.ofNat, dif_pos (Or.inl h)]
  rfl

/-- Characters are equal exactly when their code points are. -/
theorem char_eq_iff_toNat {a b : Char} : a = b ↔ a.toNat = b.toNat := by
  constructor
  · intro h; rw [h]
  · intro h
    have : Char.ofNat a.toNat = Char.ofNat b.toNat := by rw [h]
    simpa using this

theorem jsToUpper_toNat (c : Char) :
    (jsToUpper c).toNat =
      if 97 ≤ c.toNat ∧ c.toNat ≤ 122 then c.toNat - 32 else c.toNat := by
  unfold jsToUpper
  split
  · next h => exact toNat_ofNat_valid _ (by omega)
  · rfl

theorem jsToUpper_idem (c : Char) : jsToUpper (jsToUpper c) = jsToUpper c := by
  rw [char_eq_iff_toNat, jsToUpper_toNat, jsToUpper_toNat]
  split_ifs <;> omega

theorem jsToUpper_eq_iff_of_notLower (c : Char) (d : Char)
    (hd : ¬ (97 ≤ d.toNat ∧ d.toNat ≤ 122)) (hd2 : ¬ (65 ≤ d.toNat ∧ d.toNat ≤ 90)) :
    (jsToUpper c = d) ↔ (c = d) := by
  rw [char_eq_iff_toNat, char_eq_iff_toNat, jsToUpper_toNat]
  split_ifs with h
  · omega
  · exact Iff.rfl

theorem jsToUpper_eq_eq_iff (c : Char) : (jsToUpper c = '=') ↔ (c = '=') :=
  jsToUpper_eq_iff_of_notLower c '=' (by decide) (by decide)

theorem jsToUpper_eq_space_iff (c : Char) : (jsToUpper c = ' ') ↔ (c = ' ') :=
  jsToUpper_eq_iff_of_notLower c ' ' (by decide) (by decide)

/-- Disjoint or is addition: when the low `k` bits of `a` are clear and
`b` fits in `k` bits, `a ||| b = a + b`. -/
theorem lor_eq_add_of_mod_eq_zero {a b k : Nat} (ha : a % 2 ^ k = 0)
    (hb : b < 2 ^ k) : a ||| b = a + b := by
  have hd : 2 ^ k ∣ a := Nat.dvd_of_mod_eq_zero ha
  have h1 : a = 2 ^ k * (a / 2 ^ k) := (Nat.mul_div_cancel' hd).symm
  calc a ||| b = 2 ^ k * (a / 2 ^ k) ||| b := by rw [← h1]
    _ = 2 ^ k * (a / 2 ^ k) + b := (Nat.mul_add_lt_is_or hb _).symm
    _ = a + b := by rw [← h1]

theorem and_15_eq_mod (x : Nat) : x &&& 15 = x % 16 := by
  have h := Nat.and_pow_two_sub_one_eq_mod x 4
  norm_num at h
  exact h

theorem and_127_eq_mod (x : Nat) : x &&& 127 = x % 128 := by
  have h := Nat.and_pow_two_sub_one_eq_mod x 7
  norm_num at h
  exact h

theorem and_255_eq_mod (x : Nat) : x &&& 255 = x % 256 := by
  have h := Nat.and_pow_two_sub_one_eq_mod x 8
  norm_num at h
  exact h

theorem getD_mem_of_lt {l : List Nat} {i : Nat} (h : i < l.length) : l.getD i 0 ∈ l := by
  rw [List.getD_eq_getElem?_getD, List.getElem?_eq_getElem h, Option.getD_some]
  exact List.getElem_mem h

/-- The source `binCode` equals the spec's reference dynamic truncation and
is below `2 ^ 31`, for every 20-byte digest. -/
theorem binCode_eq_ref {d : List Nat} (hlen : d.length = 20)
    (hb : ∀ b ∈ d, b < 256) : binCodeOf d = refTruncate d ∧ binCodeOf d < 2 ^ 31 := by
  have hbyte : ∀ i, i < 20 → d.getD i 0 < 256 := by
    intro i hi
    exact hb _ (getD_mem_of_lt (by omega))
  have hoff : truncOffset d = d.getD 19 0 % 16 := by
    rw [truncOffset, hlen]
    exact and_15_eq_mod _
  have hofflt : truncOffset d ≤ 15 := by rw [hoff]; omega
  set o := truncOffset d with ho
  have h0 : d.getD o 0 < 256 := hbyte _ (by omega)
  have h1 : d.getD (o + 1) 0 < 256 := hbyte _ (by omega)
  have h2 : d.getD (o + 2) 0 < 256 := hbyte _ (by omega)
  have h3 : d.getD (o + 3) 0 < 256 := hbyte _ (by omega)
  have hmask0 : d.getD o 0 &&& 0x7f = d.getD o 0 % 128 := and_127_eq_mod _
  have hmask1 : d.getD (o + 1) 0 &&& 0xff = d.getD (o + 1) 0 := by
    rw [and_255_eq_mod]; omega
  have hmask2 : d.getD (o + 2) 0 &&& 0xff = d.getD (o + 2) 0 := by
    rw [and_255_eq_mod]; omega
  have hmask3 : d.getD (o + 3) 0 &&& 0xff = d.getD (o + 3) 0 := by
    rw [and_255_eq_mod]; omega
  have hbin : binCodeOf d =
      (d.getD o 0 % 128) * 2 ^ 24 + d.getD (o + 1) 0 * 2 ^ 16 +
        d.getD (o + 2) 0 * 2 ^ 8 + d.getD (o + 3) 0 := by
    have e1 : (d.getD o 0 % 128) * 2 ^ 24 ||| d.getD (o + 1) 0 * 2 ^ 16 =
        (d.getD o 0 % 128) * 2 ^ 24 + d.getD (o + 1) 0 * 2 ^ 16 :=
      lor_eq_add_of_mod_eq_zero (k := 24) (by omega) (by omega)
    have e2 : (d.getD o 0 % 128) * 2 ^ 24 + d.getD (o + 1) 0 * 2 ^ 16 |||
        d.getD (o + 2) 0 * 2 ^ 8 =
        (d.getD o 0 % 128) * 2 ^ 24 + d.getD (o + 1) 0 * 2 ^ 16 +
          d.getD (o + 2) 0 * 2 ^ 8 :=
      lor_eq_add_of_mod_eq_zero (k := 16) (by omega) (by omega)
    have e3 : (d.getD o 0 % 128) * 2 ^ 24 + d.getD (o + 1) 0 * 2 ^ 16 +
        d.getD (o + 2) 0 * 2 ^ 8 ||| d.getD (o + 3) 0 =
        (d.getD o 0 % 128) * 2 ^ 24 + d.getD (o + 1) 0 * 2 ^ 16 +
          d.getD (o + 2) 0 * 2 ^ 8 + d.getD (o + 3) 0 :=
      lor_eq_add_of_mod_eq_zero (k := 8) (by omega) (by omega)
    rw [binCodeOf, ← ho, hmask0, hmask1, hmask2, hmask3,
      Nat.shiftLeft_eq, Nat.shiftLeft_eq, Nat.shiftLeft_eq, e1, e2, e3]
  constructor
  · rw [hbin, refTruncate, ← hoff]
  · rw [hbin]
    have : d.getD o 0 % 128 < 128 := Nat.mod_lt _ (by omega)
    omega

theorem digitChar_isDigit {m : Nat} (h : m < 10) : (digitChar m).isDigit := by
  interval_cases m <;> decide

theorem natDigitsCore_length : ∀ (fuel n : Nat) (acc : List Char) (k : Nat),
    n < fuel → 0 < k → n < 10 ^ k →
    (natDigitsCore fuel n acc).length ≤ k + acc.length := by
  intro fuel
  induction fuel with
  | zero => intro n acc k h; omega
  | succ fuel ih =>
    intro n acc k hn hk hnk
    simp only [natDigitsCore]
    split
    · simp only [List.length_cons]
      omega
    · next h =>
      have hk2 : 2 ≤ k := by
        rcases Nat.lt_or_ge k 2 with hlt | hge
        · have hk1 : k = 1 := by omega
          rw [hk1] at hnk
          norm_num at hnk
          omega
        · exact hge
      have hpow : 10 ^ (k - 1) * 10 = 10 ^ k := by
        rw [← pow_succ]
        congr 1
        omega
      have hdiv : n / 10 < 10 ^ (k - 1) := by
        rw [Nat.div_lt_iff_lt_mul (by norm_num)]
        omega
      have := ih (n / 10) (digitChar (n % 10) :: acc) (k - 1)
        (by omega) (by omega) hdiv
      simp only [List.length_cons] at this
      omega

theorem natDigitsCore_digits : ∀ (fuel n : Nat) (acc : List Char),
    (∀ c ∈ acc, c.isDigit) → ∀ c ∈ natDigitsCore fuel n acc, c.isDigit := by
  intro fuel
  induction fuel with
  | zero => intro n acc hacc; simpa [natDigitsCore] using hacc
  | succ fuel ih =>
    intro n acc hacc c hc
    simp only [natDigitsCore] at hc
    have hacc2 : ∀ c ∈ digitChar (n % 10) :: acc, c.isDigit := by
      intro c hc
      rcases List.mem_cons.mp hc with h | h
      · rw [h]; exact digitChar_isDigit (Nat.mod_lt _ (by norm_num))
      · exact hacc _ h
    split at hc
    · exact hacc2 _ hc
    · exact ih _ _ hacc2 _ hc

theorem natDigits_length {n k : Nat} (hk : 0 < k) (h : n < 10 ^ k) :
    (natDigits n).length ≤ k := by
  have := natDigitsCore_length (n + 1) n [] k (by omega) hk h
  simpa [natDigits] using this

theorem natDigits_digits (n : Nat) : ∀ c ∈ natDigits n, c.isDigit :=
  natDigitsCore_digits _ _ _ (by simp)

/-- C1: for every 20-byte HMAC digest, the code emitted by `generateOTP`
equals the RFC 4226 dynamic-truncation reference: `offset = digest[19] &
0x0F`, `binCode` assembled big-endian from the four bytes at `offset`
with the top bit masked (a 31-bit non-negative integer), and the result
is the decimal representation of `binCode mod 10^6` left-padded with `0`
to exactly 6 ASCII digit characters. -/
theorem otp_code_matches_truncation_reference (d : List Nat)
    (hlen : d.length = 20) (hb : ∀ b ∈ d, b < 256) :
    otpFromDigest d 6 = refCode d ∧ binCodeOf d < 2 ^ 31 ∧
      (otpFromDigest d 6).length = 6 ∧
      ∀ c ∈ (otpFromDigest d 6).data, c.isDigit := by
  obtain ⟨heq, hlt⟩ := binCode_eq_ref hlen hb
  have hmod : binCodeOf d % 10 ^ 6 < 10 ^ 6 := Nat.mod_lt _ (by norm_num)
  have hdlen : (natDigits (binCodeOf d % 10 ^ 6)).length ≤ 6 :=
    natDigits_length (by norm_num) hmod
  refine ⟨?_, hlt, ?_, ?_⟩
  · rw [otpFromDigest, refCode, heq]
  · rw [otpFromDigest]
    simp only [String.length, padStart, List.length_append, List.length_replicate]
    omega
  · rw [otpFromDigest]
    intro c hc
    simp only [padStart, List.mem_append, List.mem_replicate] at hc
    rcases hc with ⟨_, h⟩ | h
    · rw [h]; decide
    · exact natDigits_digits _ _ h

/-- Witness for C1 at the all-zero digest. -/
theorem otp_code_matches_truncation_reference_witness :
    ((List.replicate 20 (0 : Nat)).length = 20 ∧
      ∀ b ∈ List.replicate 20 (0 : Nat), b < 256) ∧
    (otpFromDigest (List.replicate 20 (0 : Nat)) 6 =
        refCode (List.replicate 20 (0 : Nat)) ∧
      binCodeOf (List.replicate 20 (0 : Nat)) < 2 ^ 31 ∧
      (otpFromDigest (List.replicate 20 (0 : Nat)) 6).length = 6 ∧
      ∀ c ∈ (otpFromDigest (List.replicate 20 (0 : Nat)) 6).data, c.isDigit) :=
  ⟨⟨by decide, by decide⟩,
    otp_code_matches_truncation_reference _ (by decide) (by decide)⟩

/-- C9: for every 20-byte digest the dynamic-truncation offset is at most
15, so the four byte reads reach at most index 18 and stay inside the
digest. -/
theorem truncOffset_reads_in_bounds (d : List Nat) (hlen : d.length = 20) :
    truncOffset d ≤ 15 ∧ truncOffset d + 3 < d.length := by
  have h1 : truncOffset d ≤ 15 := by
    rw [truncOffset]
    exact Nat.and_le_right
  exact ⟨h1, by omega⟩

/-- Witness for C9 at the all-255 digest (which maximises the offset). -/
theorem truncOffset_reads_in_bounds_witness :
    (List.replicate 20 (255 : Nat)).length = 20 ∧
      (truncOffset (List.replicate 20 (255 : Nat)) ≤ 15 ∧
        truncOffset (List.replicate 20 (255 : Nat)) + 3 <
          (List.replicate 20 (255 : Nat)).length) :=
  ⟨by decide, truncOffset_reads_in_bounds _ (by decide)⟩

/-- C2: `generate` derives the counter as `floor(nowMs / 1000 / 30)` =
`floor(seconds / 30)`, uses it as the only clock input of `generateOTP`,
and the HMAC message is the 8-byte big-endian counter encoding: high 4
bytes zero and, for every counter below `2 ^ 32`, low 4 bytes holding the
value. -/
theorem generate_counter_derivation (ms : Nat) (t : TOTP)
    (hmacFn : List Nat → List Nat → List Nat) (hp : t.period = 30) :
    t.generate hmacFn ms = t.generateOTP hmacFn (ms / 1000 / 30) ∧
      ms / 1000 / 30 = ms / 30000 ∧
      (counterBytes (ms / 1000 / 30)).take 4 = [0, 0, 0, 0] ∧
      (ms / 1000 / 30 < 2 ^ 32 →
        counterBytes (ms / 1000 / 30) = [0, 0, 0, 0] ++ be4 (ms / 1000 / 30)) := by
  refine ⟨by rw [TOTP.generate, hp], by omega, by rw [counterBytes]; rfl, ?_⟩
  intro hlt
  rw [counterBytes, be4, Nat.mod_eq_of_lt hlt]
  rfl

/-- Witness for C2 at `nowMs = 59999` (counter 1). -/
theorem generate_counter_derivation_witness :
    (TOTP.period ⟨[1], 30, 6, "SHA-1".data⟩ = 30) ∧
      (TOTP.generate ⟨[1], 30, 6, "SHA-1".data⟩ (fun _ _ => List.replicate 20 0) 59999 =
          TOTP.generateOTP ⟨[1], 30, 6, "SHA-1".data⟩
            (fun _ _ => List.replicate 20 0) (59999 / 1000 / 30) ∧
        59999 / 1000 / 30 = 59999 / 30000 ∧
        (counterBytes (59999 / 1000 / 30)).take 4 = [0, 0, 0, 0] ∧
        (59999 / 1000 / 30 < 2 ^ 32 →
          counterBytes (59999 / 1000 / 30) = [0, 0, 0, 0] ++ be4 (59999 / 1000 / 30))) :=
  ⟨rfl, generate_counter_derivation 59999 ⟨[1], 30, 6, "SHA-1".data⟩
    (fun _ _ => List.replicate 20 0) rfl⟩

/-- C8: the generated code is a pure function of the secret bytes and the
counter: two instances with equal secret bytes and equal digit count give
byte-for-byte equal strings at equal counters, for any HMAC function,
whatever their other fields are. -/
theorem generateOTP_deterministic (hmacFn : List Nat → List Nat → List Nat)
    (t₁ t₂ : TOTP) (c₁ c₂ : Nat) (hs : t₁.secret = t₂.secret)
    (hd : t₁.digits = t₂.digits) (hc : c₁ = c₂) :
    t₁.generateOTP hmacFn c₁ = t₂.generateOTP hmacFn c₂ := by
  rw [TOTP.generateOTP, TOTP.generateOTP, hs, hd, hc]

/-- Witness for C8: two instances differing in the irrelevant `period`
field produce the same code at counter 5. -/
theorem generateOTP_deterministic_witness :
    (TOTP.secret ⟨[1, 2], 30, 6, "SHA-1".data⟩ = TOTP.secret ⟨[1, 2], 31, 6, []⟩ ∧
      TOTP.digits ⟨[1, 2], 30, 6, "SHA-1".data⟩ = TOTP.digits ⟨[1, 2], 31, 6, []⟩ ∧
      (5 : Nat) = 5) ∧
    TOTP.generateOTP ⟨[1, 2], 30, 6, "SHA-1".data⟩ (fun k m => k ++ m ++ List.replicate 14 7) 5 =
      TOTP.generateOTP ⟨[1, 2], 31, 6, []⟩ (fun k m => k ++ m ++ List.replicate 14 7) 5 :=
  ⟨⟨rfl, rfl, rfl⟩,
    generateOTP_deterministic (fun k m => k ++ m ++ List.replicate 14 7)
      ⟨[1, 2], 30, 6, "SHA-1".data⟩ ⟨[1, 2], 31, 6, []⟩ 5 5 rfl rfl rfl⟩

/-- C10: the HMAC message stores only `counter % 2 ^ 32`: the message (and
hence the generated code, for every secret and HMAC function) is the same
at `c` and `c + 2 ^ 32`; the message equals the true 8-byte big-endian
encoding of the counter exactly on counters below `2 ^ 32` (for counters
in `[2 ^ 32, 2 ^ 64)` the true encoding has a non-zero high half). -/
theorem counter_wraps_mod_2_pow_32 (c : Nat) (t : TOTP)
    (hmacFn : List Nat → List Nat → List Nat) :
    counterBytes (c + 2 ^ 32) = counterBytes c ∧
      t.generateOTP hmacFn (c + 2 ^ 32) = t.generateOTP hmacFn c ∧
      (c < 2 ^ 32 → counterBytes c = be8 c) ∧
      (2 ^ 32 ≤ c → c < 2 ^ 64 → counterBytes c ≠ be8 c) := by
  have hwrap : (c + 2 ^ 32) % 2 ^ 32 = c % 2 ^ 32 := by omega
  have h1 : counterBytes (c + 2 ^ 32) = counterBytes c := by
    rw [counterBytes, counterBytes, hwrap]
  refine ⟨h1, by rw [TOTP.generateOTP, TOTP.generateOTP, h1], ?_, ?_⟩
  · intro hlt
    rw [counterBytes, be8, Nat.mod_eq_of_lt hlt]
    have e1 : c / 2 ^ 56 % 256 = 0 := by omega
    have e2 : c / 2 ^ 48 % 256 = 0 := by omega
    have e3 : c / 2 ^ 40 % 256 = 0 := by omega
    have e4 : c / 2 ^ 32 % 256 = 0 := by omega
    rw [e1, e2, e3, e4]
  · intro hge hlt heq
    rw [counterBytes, be8] at heq
    simp only [List.cons.injEq, and_true] at heq
    omega

/-- Witness for C10 at counter 0 (and its wrap-around partner `2 ^ 32`). -/
theorem counter_wraps_mod_2_pow_32_witness :
    counterBytes (0 + 2 ^ 32) = counterBytes 0 ∧
      TOTP.generateOTP ⟨[9], 30, 6, "SHA-1".data⟩ (fun k m => k ++ m ++ List.replicate 11 3) (0 + 2 ^ 32) =
        TOTP.generateOTP ⟨[9], 30, 6, "SHA-1".data⟩ (fun k m => k ++ m ++ List.replicate 11 3) 0 ∧
      ((0 : Nat) < 2 ^ 32 → counterBytes 0 = be8 0) ∧
      (2 ^ 32 ≤ (0 : Nat) → (0 : Nat) < 2 ^ 64 → counterBytes 0 ≠ be8 0) :=
  counter_wraps_mod_2_pow_32 0 ⟨[9], 30, 6, "SHA-1".data⟩
    (fun k m => k ++ m ++ List.replicate 11 3)

theorem idxOf_lt_length : ∀ {l : List Char} {c : Char} {i : Nat},
    idxOf l c = some i → i < l.length := by
  intro l
  induction l with
  | nil => intro c i h; simp [idxOf] at h
  | cons a rest ih =>
    intro c i h
    rw [idxOf] at h
    split at h
    · simp only [Option.some.injEq] at h
      simp [← h]
    · rcases Option.map_eq_some'.mp h with ⟨j, hj, hij⟩
      have := ih hj
      simp only [List.length_cons]
      omega

theorem idx_lt_32 {c : Char} {i : Nat} (h : idxOf alphabet c = some i) : i < 32 := by
  have h1 := idxOf_lt_length h
  have h2 : alphabet.length = 32 := by decide
  omega

/-- The source accumulator loop agrees with the reference loop: the
reference bit buffer is exactly the low `bits` bits of the JS
accumulator. -/
theorem base32Loop_eq_refLoop : ∀ (l : List Char) (bits value : Nat) (bytes : List Nat),
    bits ≤ 7 → value < 2 ^ 32 →
    base32Loop l bits value bytes = base32RefLoop l bits (value % 2 ^ bits) bytes := by
  intro l
  induction l with
  | nil => intro bits value bytes _ _; rfl
  | cons c rest ih =>
    intro bits value bytes hbits hv
    cases hidx : idxOf alphabet c with
    | none => simp only [base32Loop, base32RefLoop, hidx]
    | some idx =>
      have hidx32 : idx < 32 := idx_lt_32 hidx
      simp only [base32Loop, base32RefLoop, hidx]
      have hsl : value <<< 5 = value * 32 := by
        rw [Nat.shiftLeft_eq]
      have hlor : ((value <<< 5) % 2 ^ 32) ||| idx = (value * 32) % 2 ^ 32 + idx := by
        rw [hsl]
        exact lor_eq_add_of_mod_eq_zero (k := 5) (by omega) (by omega)
      rw [hlor]
      split_ifs with hcond
      · have hbyte : ((value * 32) % 2 ^ 32 + idx) >>> (bits + 5 - 8) &&& 0xff
            = ((value % 2 ^ bits) * 32 + idx) / 2 ^ (bits + 5 - 8) := by
          rw [Nat.shiftRight_eq_div_pow, and_255_eq_mod]
          interval_cases bits <;> omega
        rw [hbyte]
        rw [ih (bits + 5 - 8) ((value * 32) % 2 ^ 32 + idx) _ (by omega) (by omega)]
        congr 1
        interval_cases bits <;> omega
      · rw [ih (bits + 5) ((value * 32) % 2 ^ 32 + idx) bytes (by omega) (by omega)]
        congr 1
        interval_cases bits <;> omega

theorem base32Loop_ok : ∀ (l : List Char) (bits value : Nat) (bytes : List Nat),
    (∀ c ∈ l, (idxOf alphabet c).isSome) →
    ∃ bs, base32Loop l bits value bytes = .ok bs := by
  intro l
  induction l with
  | nil => intro bits value bytes _; exact ⟨bytes, rfl⟩
  | cons c rest ih =>
    intro bits value bytes hall
    have hc := hall c (by simp)
    cases hidx : idxOf alphabet c with
    | none => rw [hidx] at hc; simp at hc
    | some idx =>
      simp only [base32Loop, hidx]
      split_ifs with h
      · exact ih _ _ _ (fun d hd => hall d (by simp [hd]))
      · exact ih _ _ _ (fun d hd => hall d (by simp [hd]))

theorem base32Loop_err : ∀ (l : List Char) (bits value : Nat) (bytes : List Nat),
    (∃ c ∈ l, idxOf alphabet c = none) →
    base32Loop l bits value bytes = .error "Invalid base32" := by
  intro l
  induction l with
  | nil => intro bits value bytes h; simp at h
  | cons c rest ih =>
    intro bits value bytes hex
    cases hidx : idxOf alphabet c with
    | none => simp only [base32Loop, hidx]
    | some idx =>
      obtain ⟨c', hc', hnone⟩ := hex
      rcases List.mem_cons.mp hc' with rfl | htail
      · rw [hidx] at hnone
        cases hnone
      · simp only [base32Loop, hidx]
        split_ifs with h
        · exact ih _ _ _ ⟨c', htail, hnone⟩
        · exact ih _ _ _ ⟨c', htail, hnone⟩

/-- C3: on input whose normalised symbols all lie in the Base32 alphabet,
the source decode equals the reference 5-bit accumulator decode (trailing
sub-byte bits silently discarded), succeeds, and returns zero bytes on
empty normalised input. -/
theorem base32_decode_matches_reference (s : List Char)
    (h : ∀ c ∈ stripTrailingEq (List.map jsToUpper s), (idxOf alphabet c).isSome) :
    base32ToBytes s = base32Ref s ∧ (∃ bs, base32ToBytes s = .ok bs) ∧
      (stripTrailingEq (List.map jsToUpper s) = [] → base32ToBytes s = .ok []) := by
  refine ⟨?_, ?_, ?_⟩
  · rw [base32ToBytes, base32Ref]
    have := base32Loop_eq_refLoop (stripTrailingEq (List.map jsToUpper s)) 0 0 []
      (by omega) (by norm_num)
    simpa using this
  · rw [base32ToBytes]
    exact base32Loop_ok _ 0 0 [] h
  · intro hempty
    rw [base32ToBytes, hempty]
    rfl

/-- Witness for C3 at the secret text of the spec's known-vector scenario. -/
theorem base32_decode_matches_reference_witness :
    (∀ c ∈ stripTrailingEq (List.map jsToUpper "JBSWY3DPEHPK3PXP".data),
        (idxOf alphabet c).isSome) ∧
      (base32ToBytes "JBSWY3DPEHPK3PXP".data = base32Ref "JBSWY3DPEHPK3PXP".data ∧
        (∃ bs, base32ToBytes "JBSWY3DPEHPK3PXP".data = .ok bs) ∧
        (stripTrailingEq (List.map jsToUpper "JBSWY3DPEHPK3PXP".data) = [] →
          base32ToBytes "JBSWY3DPEHPK3PXP".data = .ok [])) :=
  ⟨by decide, base32_decode_matches_reference _ (by decide)⟩

/-- C4: any input whose normalised form contains a symbol outside the
Base32 alphabet is rejected with the `Invalid base32` error (an `Except`
error carries no partial byte output). -/
theorem base32_decode_rejects_bad_symbol (s : List Char)
    (h : ∃ c ∈ stripTrailingEq (List.map jsToUpper s), idxOf alphabet c = none) :
    base32ToBytes s = .error "Invalid base32" := by
  rw [base32ToBytes]
  exact base32Loop_err _ 0 0 [] h

/-- Witness for C4 at the spec's rejection scenario input, the string
consisting of the single character 1. -/
theorem base32_decode_rejects_bad_symbol_witness :
    (∃ c ∈ stripTrailingEq (List.map jsToUpper ['1']), idxOf alphabet c = none) ∧
      base32ToBytes ['1'] = .error "Invalid base32" :=
  ⟨⟨'1', by decide, by decide⟩,
    base32_decode_rejects_bad_symbol ['1'] ⟨'1', by decide, by decide⟩⟩

/-- C5 counterexample: the secret text `=` Base32-decodes to zero bytes,
yet the constructor succeeds with a zero-length key rather than failing. -/
theorem ofSecret_zero_length_accepted :
    secretDecode "=".data = .ok [] ∧
      TOTP.ofSecret "=".data = .ok ⟨[], 30, 6, "SHA-1".data⟩ := by
  decide

/-- C5 amended: construction fails exactly when the space-stripped secret
text fails Base32 decoding; a secret that decodes successfully to zero
bytes is accepted at construction (with a zero-length key), not
rejected. -/
theorem ofSecret_fails_iff_decode_fails (s : List Char) :
    ((∃ t, TOTP.ofSecret s = .ok t) ↔ ∃ bs, secretDecode s = .ok bs) ∧
      (secretDecode s = .ok [] → TOTP.ofSecret s = .ok ⟨[], 30, 6, "SHA-1".data⟩) := by
  constructor
  · constructor
    · rintro ⟨t, ht⟩
      rw [TOTP.ofSecret] at ht
      cases hd : secretDecode s with
      | error e => rw [hd] at ht; simp [Except.map] at ht
      | ok bs => exact ⟨bs, rfl⟩
    · rintro ⟨bs, hbs⟩
      rw [TOTP.ofSecret, hbs]
      exact ⟨_, rfl⟩
  · intro h
    rw [TOTP.ofSecret, h]
    rfl

/-- Witness for the amended C5: the zero-byte acceptance branch applied at
secret text `=`. -/
theorem ofSecret_fails_iff_decode_fails_witness :
    TOTP.ofSecret "=".data = .ok ⟨[], 30, 6, "SHA-1".data⟩ :=
  (ofSecret_fails_iff_decode_fails "=".data).2 (by decide)

theorem beq_eq_of_jsToUpper (c : Char) : (jsToUpper c == '=') = (c == '=') := by
  by_cases h : c = '='
  · rw [h]
    decide
  · have h2 : jsToUpper c ≠ '=' := fun hc => h ((jsToUpper_eq_eq_iff c).mp hc)
    simp [h, h2]

theorem mem_stripTrailingEq {l : List Char} {a : Char}
    (h : a ∈ stripTrailingEq l) : a ∈ l := by
  rw [stripTrailingEq, List.mem_reverse] at h
  have hs := List.dropWhile_sublist (l := l.reverse) (fun c => c == '=')
  exact List.mem_reverse.mp (hs.subset h)

theorem map_jsToUpper_stripTrailingEq (l : List Char) :
    List.map jsToUpper (stripTrailingEq l) = stripTrailingEq (List.map jsToUpper l) := by
  have hq : ((fun c => c == '=') ∘ jsToUpper) = (fun c : Char => c == '=') := by
    funext c
    exact beq_eq_of_jsToUpper c
  rw [stripTrailingEq, stripTrailingEq, ← List.map_reverse, List.dropWhile_map, hq,
    List.map_reverse]

theorem dropWhile_self_idem (p : Char → Bool) :
    ∀ l : List Char, (l.dropWhile p).dropWhile p = l.dropWhile p := by
  intro l
  induction l with
  | nil => rfl
  | cons a rest ih =>
    rw [List.dropWhile_cons]
    split
    · exact ih
    · next h => simp [List.dropWhile_cons, h]

theorem stripTrailingEq_idem (l : List Char) :
    stripTrailingEq (stripTrailingEq l) = stripTrailingEq l := by
  rw [stripTrailingEq, stripTrailingEq, List.reverse_reverse, dropWhile_self_idem]

theorem no_space_in_normalizeSecret (s : List Char) :
    ∀ c ∈ normalizeSecret s, (c != ' ') = true := by
  intro c hc
  have h1 : c ∈ List.map jsToUpper (removeSpaces s) := mem_stripTrailingEq hc
  rw [List.mem_map] at h1
  obtain ⟨c', hc', rfl⟩ := h1
  rw [removeSpaces, List.mem_filter] at hc'
  have hne : c' ≠ ' ' := by
    intro he
    rw [he] at hc'
    simp at hc'
  have : jsToUpper c' ≠ ' ' := fun hup => hne ((jsToUpper_eq_space_iff c').mp hup)
  simpa using this

theorem map_jsToUpper_idem (l : List Char) :
    List.map jsToUpper (List.map jsToUpper l) = List.map jsToUpper l := by
  rw [List.map_map]
  exact List.map_congr_left (fun c _ => jsToUpper_idem c)

theorem normalizeSecret_idem (s : List Char) :
    normalizeSecret (normalizeSecret s) = normalizeSecret s := by
  have h1 : removeSpaces (normalizeSecret s) = normalizeSecret s :=
    List.filter_eq_self.mpr (no_space_in_normalizeSecret s)
  rw [normalizeSecret, h1]
  rw [show normalizeSecret s = stripTrailingEq (List.map jsToUpper (removeSpaces s)) from rfl]
  rw [map_jsToUpper_stripTrailingEq, map_jsToUpper_idem, stripTrailingEq_idem]

/-- C6 amended: before decoding, the constructor path removes interior
U+0020 space characters (only those, not all whitespace), upper-cases
letters and strips trailing `=`; decoding a secret text is the same as
decoding its normalised form, hence interior spaces and lower-case
letters never change success or the decoded bytes. -/
theorem secretDecode_eq_of_normalized (s : List Char) :
    secretDecode s = base32Loop (normalizeSecret s) 0 0 [] ∧
      secretDecode (normalizeSecret s) = secretDecode s := by
  refine ⟨rfl, ?_⟩
  calc secretDecode (normalizeSecret s)
      = base32Loop (normalizeSecret (normalizeSecret s)) 0 0 [] := rfl
    _ = base32Loop (normalizeSecret s) 0 0 [] := by rw [normalizeSecret_idem]
    _ = secretDecode s := rfl

/-- C6 counterexample: a tab character is whitespace but is not removed by
the code (only U+0020 is), so decoding the text `AA<TAB>AA` fails even
though its fully-whitespace-stripped normalised form `AAAA` decodes. -/
theorem tab_not_removed_counterexample :
    secretDecode "AA\tAA".data = .error "Invalid base32" ∧
      secretDecode (specWhitespaceNormalize "AA\tAA".data) = .ok [0, 0] := by
  decide

/-- C7 amended: the otpauth parser succeeds exactly when the URI parses
structurally, the scheme is `otpauth`, the type/host is `totp`, AND the
label percent-decodes (a malformed escape such as `%zz` makes
`decodeURIComponent` throw, failing the parse); on success it returns the
percent-decoded path after the leading slash as label together with the
`secret` and `issuer` query parameters, the secret being optional. -/
theorem parseOtpAuthUrl_spec (l : List Char) :
    ((∃ p, parseOtpAuthUrl l = .ok p) ↔
      ∃ u, parseURL l = some u ∧ u.scheme = "otpauth".data ∧ u.host = "totp".data ∧
        ∃ lab, percentDecode (u.path.drop 1) = some lab) ∧
    (∀ u lab, parseURL l = some u → u.scheme = "otpauth".data → u.host = "totp".data →
      percentDecode (u.path.drop 1) = some lab →
      parseOtpAuthUrl l =
        .ok ⟨lab, getParam u.query "secret".data, getParam u.query "issuer".data⟩) := by
  constructor
  · constructor
    · rintro ⟨p, hp⟩
      rw [parseOtpAuthUrl] at hp
      cases hu : parseURL l with
      | none => rw [hu] at hp; cases hp
      | some u =>
        rw [hu] at hp
        simp only [] at hp
        by_cases hs : u.scheme = "otpauth".data
        · by_cases hh : u.host = "totp".data
          · rw [if_neg (not_not_intro hs), if_neg (not_not_intro hh)] at hp
            cases hd : percentDecode (u.path.drop 1) with
            | none => rw [hd] at hp; cases hp
            | some lab => exact ⟨u, rfl, hs, hh, lab, hd⟩
          · rw [if_neg (not_not_intro hs), if_pos hh] at hp
            cases hp
        · rw [if_pos hs] at hp
          cases hp
    · rintro ⟨u, hu, hs, hh, lab, hd⟩
      simp only [parseOtpAuthUrl, hu]
      rw [if_neg (not_not_intro hs), if_neg (not_not_intro hh), hd]
      exact ⟨_, rfl⟩
  · intro u lab hu hs hh hd
    simp only [parseOtpAuthUrl, hu]
    rw [if_neg (not_not_intro hs), if_neg (not_not_intro hh), hd]

/-- C7 counterexample to the claim as stated: this URI is structurally
parseable with scheme `otpauth` and host `totp`, yet the parser fails,
because `decodeURIComponent` throws on the malformed escape `%zz` in the
label. -/
theorem parseOtpAuthUrl_percent_counterexample :
    urlSchemeHost "otpauth://totp/%zz?secret=A".data =
        some ("otpauth".data, "totp".data) ∧
      parseOtpAuthUrl "otpauth://totp/%zz?secret=A".data =
        .error "malformed URI component" := by
  decide

/-- Witness for the amended C7 at the spec's provisioning-URI scenario. -/
theorem parseOtpAuthUrl_spec_witness :
    parseOtpAuthUrl
        "otpauth://totp/Example:alice@site.com?secret=JBSWY3DPEHPK3PXP&issuer=Example".data =
      .ok ⟨"Example:alice@site.com".data,
        some "JBSWY3DPEHPK3PXP".data, some "Example".data⟩ :=
  ((parseOtpAuthUrl_spec
      "otpauth://totp/Example:alice@site.com?secret=JBSWY3DPEHPK3PXP&issuer=Example".data).2
    ⟨"otpauth".data, "totp".data, "/Example:alice@site.com".data,
      "secret=JBSWY3DPEHPK3PXP&issuer=Example".data⟩
    "Example:alice@site.com".data (by decide) (by decide) (by decide) (by decide)).trans
    (by decide)
